import Mathlib

/-!
# Chained hash table of `hash-table.c`

A shallow embedding of the hash table engine of `src/hash-table.c`
(`HashFunction`, `AddEntryToHashTable`, `DeleteEntryFromHashTable`,
`SearchHashTable`, `ListHashTable`) together with the properties of the
specification that were checked against it.

Modelling conventions.

* A C string is the list of its `char` codes before the terminating NUL, each
  code being the value the C `char` holds (so a code may be negative where
  `char` is signed).  `strcmp(a, b) == 0` is equality of the two lists and
  `s[0] == 0` is `s = []`.  Strings are shorter than `2 ^ 31` characters, so
  that `strlen` fits the `int` it is stored in and the `long` sum of the
  character codes cannot overflow.
* A nullable `strHashTable *` is the list of the payloads of the nodes
  reachable through it: `[]` is `NULL`, `d :: next` is a pointer to a node
  whose `szData` is `d` and whose `pstrNext` is `next`.  Nodes are never
  shared between chains (each one is the result of one `calloc` and is linked
  exactly once), so this loses nothing.
* The bucket array is a list of nodes.  Indexing it outside its bounds and
  taking a remainder by zero are undefined in C; the embedded functions
  return `none` there.
* `calloc` inside `AddEntryToHashTable` may fail; its outcome is the Boolean
  argument `bCalloc`.
* `BUFSIZ` comes from `<stdio.h>`; it is an argument of the embedding.
-/

namespace HashTableC

/-- The characters of a C string, terminator excluded. -/
abbrev CString := List Int

/-- Record `strHashTable` of the source: a payload and the link to the rest of
the chain. -/
structure strHashTable where
  szData : CString
  pstrNext : List CString
deriving DecidableEq, Repr

/-- All payloads of the chain that starts at a node, in chain order. -/
def strHashTable.chain (b : strHashTable) : List CString :=
  b.szData :: b.pstrNext

/-- Result of `calloc(nBucketSize, sizeof(strHashTable))` in `main`: every
bucket head zeroed (empty payload, no link). -/
def newTable (nBucketSize : Nat) : List strHashTable :=
  List.replicate nBucketSize ⟨[], []⟩

/-- Element `pastrHash[nHashIndex]`; `none` outside the array. -/
def bucketAt (pastrHash : List strHashTable) (nHashIndex : Int) : Option strHashTable :=
  if 0 ≤ nHashIndex then pastrHash[nHashIndex.toNat]? else none

/-- `HashFunction` of the source: the `long` sum of the characters, then the C
remainder (truncated towards zero) by `nSize`. -/
def HashFunction (nSize : Int) (pszData : CString) : Option Int :=
  let lnSum : Int := pszData.foldl (fun lnSum c => lnSum + c) 0
  if nSize = 0 then none else some (Int.tmod lnSum nSize)

/-- The `for` loop of `AddEntryToHashTable`, entered at a node with payload
`szData` and link `pstrNext`, followed by the store of the new node `szNew`
at `pstrPrevious`.  `none` is the early `return(1)`; otherwise the result is
the chain from the entered node onwards after the store. -/
def addLoop (pszData szNew : CString) :
    Bool → CString → List CString → Option strHashTable
  | bFirstChainHasData, szData, pstrNext =>
    if szData = [] then
      -- break; pstrPrevious is this node
      if bFirstChainHasData = false then
        some ⟨szNew, []⟩          -- memcpy of the whole new node over it
      else
        some ⟨szData, [szNew]⟩    -- pstrPrevious->pstrNext = pstrNewChain
    else if szData = pszData then
      none
    else
      -- bFirstChainHasData = TRUE
      match pstrNext with
      | [] => some ⟨szData, [szNew]⟩
      | d :: next =>
        (addLoop pszData szNew true d next).map
          (fun n => ⟨szData, n.szData :: n.pstrNext⟩)

/-- `AddEntryToHashTable` of the source.  Returns the return code and the
table after the call. -/
def AddEntryToHashTable (BUFSIZ : Nat) (bCalloc : Bool)
    (pastrHash : List strHashTable) (nSize : Int) (pszData : CString) :
    Option (Int × List strHashTable) :=
  match HashFunction nSize pszData with
  | none => none
  | some nHashIndex =>
    match bucketAt pastrHash nHashIndex with
    | none => none
    | some b =>
      -- strncpy(pstrNewChain->szData, pszData, sizeof(szData)-1) into a zeroed node
      match addLoop pszData (pszData.take BUFSIZ) false b.szData b.pstrNext with
      | none => some (1, pastrHash)
      | some b' =>
        if bCalloc then some (0, pastrHash.set nHashIndex.toNat b')
        else some (-1, pastrHash)

/-- The iterations of the `for` loop of `DeleteEntryFromHashTable` after the
first one (`bFirstChain` is `FALSE`), entered with `pstrCurrent`; the link
walked is `pstrPrevious->pstrNext`.  `none`: the chain ends without a match;
otherwise the new value of the chain behind `pstrPrevious`. -/
def deleteLoop (pszData : CString) : List CString → Option (List CString)
  | [] => none
  | szData :: pstrNext =>
    if szData ≠ pszData then
      (deleteLoop pszData pstrNext).map (fun l => szData :: l)
    else
      -- pstrPrevious->pstrNext is pstrCurrent, never NULL here
      some (if pstrNext ≠ [] then pstrNext else [])

/-- `DeleteEntryFromHashTable` of the source.  Returns the return code and the
table after the call. -/
def DeleteEntryFromHashTable (pastrHash : List strHashTable) (nSize : Int)
    (pszData : CString) : Option (Int × List strHashTable) :=
  match HashFunction nSize pszData with
  | none => none
  | some nHashIndex =>
    match bucketAt pastrHash nHashIndex with
    | none => none
    | some b =>
      if b.szData ≠ pszData then
        -- bFirstChain = FALSE
        match deleteLoop pszData b.pstrNext with
        | none => some (1, pastrHash)
        | some l => some (0, pastrHash.set nHashIndex.toNat ⟨b.szData, l⟩)
      else
        -- memset(pstrCurrent->szData, 0, sizeof(pstrCurrent->szData))
        some (0, pastrHash.set nHashIndex.toNat ⟨[], b.pstrNext⟩)

/-- The `for` loop of `SearchHashTable`: the value of `nChain` at the first
node whose payload equals `pszData`, if there is one. -/
def searchLoop (pszData : CString) : List CString → Nat → Option Nat
  | [], _ => none
  | szData :: pstrNext, nChain =>
    if szData = pszData then some nChain
    else searchLoop pszData pstrNext (nChain + 1)

/-- `SearchHashTable` of the source: the bucket index, or `-1`. -/
def SearchHashTable (pastrHash : List strHashTable) (nSize : Int)
    (pszData : CString) : Option Int :=
  match HashFunction nSize pszData with
  | none => none
  | some nHashIndex =>
    match bucketAt pastrHash nHashIndex with
    | none => none
    | some b =>
      match searchLoop pszData b.chain 0 with
      | some _ => some nHashIndex
      | none => some (-1)

/-- The outer `for` loop of `ListHashTable` from `nIndex` on, `fuel` being the
number of iterations left; the inner loop adds one per node of the chain. -/
def listLoop (pastrHash : List strHashTable) :
    (fuel : Nat) → (nIndex : Nat) → (nReturnCode : Int) → Option Int
  | 0, _, nReturnCode => some nReturnCode
  | fuel + 1, nIndex, nReturnCode =>
    match pastrHash[nIndex]? with
    | none => none
    | some b => listLoop pastrHash fuel (nIndex + 1) (nReturnCode + b.chain.length)

/-- `ListHashTable` of the source: the value of `nReturnCode`. -/
def ListHashTable (pastrHash : List strHashTable) (nSize : Int) : Option Int :=
  listLoop pastrHash nSize.toNat 0 0

/-- Number of records of the table whose payload is not empty (the "live
record count" of the specification). -/
def liveCount (pastrHash : List strHashTable) : Nat :=
  (pastrHash.map (fun b => (b.chain.filter (fun d => decide (d ≠ []))).length)).sum

/-- `SearchHashTable` reports a match (its result is not `-1`). -/
def Found (pastrHash : List strHashTable) (nSize : Int) (pszData : CString) : Prop :=
  ∃ i : Int, SearchHashTable pastrHash nSize pszData = some i ∧ i ≠ -1

/-- Character codes of an ASCII string. -/
def ofString (s : String) : CString :=
  s.toList.map (fun c => (c.toNat : Int))

/-- Table of 5 buckets whose bucket 0 holds the given chain of ASCII payloads
and whose other bucket heads are zeroed. -/
def table5 (szData : String) (pstrNext : List String) : List strHashTable :=
  ⟨ofString szData, pstrNext.map ofString⟩ :: newTable 4

/-- Tables the program can be in after a run of `AddEntryToHashTable` and
`DeleteEntryFromHashTable` calls with non-empty keys on the table `main`
builds for `nSize` buckets. -/
inductive Reachable (BUFSIZ : Nat) (nSize : Int) : List strHashTable → Prop
  | init : Reachable BUFSIZ nSize (newTable nSize.toNat)
  | add {t t1 : List strHashTable} {k : CString} {c : Bool} {r : Int} :
      Reachable BUFSIZ nSize t → k ≠ [] →
      AddEntryToHashTable BUFSIZ c t nSize k = some (r, t1) →
      Reachable BUFSIZ nSize t1
  | delete {t t1 : List strHashTable} {k : CString} {r : Int} :
      Reachable BUFSIZ nSize t → k ≠ [] →
      DeleteEntryFromHashTable t nSize k = some (r, t1) →
      Reachable BUFSIZ nSize t1

/-- No record behind a bucket head has an empty payload. -/
def NoEmptyOverflow (pastrHash : List strHashTable) : Prop :=
  ∀ b ∈ pastrHash, ∀ d ∈ b.pstrNext, d ≠ []

/-- Tables the program can be in after a run of `AddEntryToHashTable` and
`DeleteEntryFromHashTable` calls whose keys are no longer than the payload
capacity (`BUFSIZ` characters; the empty key is allowed), on the table `main`
builds for `nSize` buckets. -/
inductive ReachableFit (BUFSIZ : Nat) (nSize : Int) : List strHashTable → Prop
  | init : ReachableFit BUFSIZ nSize (newTable nSize.toNat)
  | add {t t1 : List strHashTable} {k : CString} {c : Bool} {r : Int} :
      ReachableFit BUFSIZ nSize t → k.length ≤ BUFSIZ →
      AddEntryToHashTable BUFSIZ c t nSize k = some (r, t1) →
      ReachableFit BUFSIZ nSize t1
  | delete {t t1 : List strHashTable} {k : CString} {r : Int} :
      ReachableFit BUFSIZ nSize t → k.length ≤ BUFSIZ →
      DeleteEntryFromHashTable t nSize k = some (r, t1) →
      ReachableFit BUFSIZ nSize t1

/-- Every record with a non-empty payload lies in the chain of the bucket its
payload hashes to. -/
def Placement (nSize : Int) (pastrHash : List strHashTable) : Prop :=
  ∀ (i : Int) (b : strHashTable), bucketAt pastrHash i = some b →
    ∀ p ∈ b.chain, p ≠ [] → HashFunction nSize p = some i

/-- The non-empty payloads of all records of the table, bucket by bucket and
in chain order, one entry per record. -/
def livePayloads (pastrHash : List strHashTable) : List CString :=
  pastrHash.flatMap (fun b => b.chain.filter (fun d => decide (d ≠ [])))

/-- Record `strCommandLine` of the source. -/
structure strCommandLine where
  bDebug : Bool
  nBucketSize : Int
deriving DecidableEq, Repr

/-- The `for` loop of `ProcessCommandLine` over the arguments from
`argv[nIndex]` on.  `atoi` is the C library function.  `none`: `--hashsize` is
the last argument, so `atoi` is handed the terminating null pointer of
`argv`. -/
def processArgs (atoi : String → Int) : List String → strCommandLine → Option strCommandLine
  | [], o => some o
  | a :: rest, o =>
    if a = "--hashsize" then
      match rest with
      | [] => none
      | v :: _ => processArgs atoi rest { o with nBucketSize := atoi v }
    else if a = "--debug" then
      processArgs atoi rest { o with bDebug := true }
    else
      processArgs atoi rest o

/-- `ProcessCommandLine` of the source (the loop starts at `argv[1]`). -/
def ProcessCommandLine (atoi : String → Int) (argv : List String) : Option strCommandLine :=
  processArgs atoi argv.tail ⟨false, 0⟩

/-- How `main` reaches its menu loop: it either exits with a code or enters
the loop with a bucket count and a bucket array. -/
inductive Startup where
  | exited (nExitCode : Int)
  | menu (nBucketSize : Int) (pastrHash : List strHashTable)
deriving DecidableEq, Repr

/-- The part of `main` before the menu loop.  `bCalloc` tells whether `calloc`
returns a non-null pointer; for a negative count, converted to `size_t`, the
requested size overflows and `calloc` returns `NULL` whatever the allocator.
For a count of `0` the C standard lets `calloc` return either. -/
def mainStartup (atoi : String → Int) (bCalloc : Bool) (argv : List String) :
    Option Startup :=
  if argv.length < 3 then some (Startup.exited 1)
  else
    match ProcessCommandLine atoi argv with
    | none => none
    | some strRunOptions =>
      let nBucketSize := strRunOptions.nBucketSize
      if nBucketSize < 0 ∨ bCalloc = false then some (Startup.exited (-1))
      else some (Startup.menu nBucketSize (newTable nBucketSize.toNat))

/-- The longest payload when `BUFSIZ` is `8192`: `8192` times `'a'`. -/
def longPayload : CString := List.replicate 8192 97

/-- A key of `8193` characters, one more than fits the payload when `BUFSIZ`
is `8192`: `8192` times `'a'`, then `'b'`. -/
def longKey : CString := longPayload ++ [98]

/-- The hash as the specification words it: the sum of the numeric codes of
the characters of the key, taken modulo the bucket count, a value in
`0..bucketCount-1` for a positive bucket count. -/
def sumModulo (bucketCount : Int) (key : CString) : Int :=
  key.sum % bucketCount

/-- The codes `0..255` of the bytes of a string whose characters are given as
a signed `char` holds them. -/
def byteCodes (key : CString) : CString :=
  key.map (fun c => c % 256)

/-! ## The array of buckets -/

theorem bucketAt_some {t : List strHashTable} {i : Int} {b : strHashTable}
    (h : bucketAt t i = some b) : 0 ≤ i ∧ i.toNat < t.length ∧ t[i.toNat]? = some b := by
  unfold bucketAt at h
  split at h
  · rename_i h0
    refine ⟨h0, ?_, h⟩
    by_contra hlt
    rw [List.getElem?_eq_none (Nat.le_of_not_lt hlt)] at h
    cases h
  · cases h

theorem bucketAt_mem {t : List strHashTable} {i : Int} {b : strHashTable}
    (h : bucketAt t i = some b) : b ∈ t :=
  List.getElem?_mem (bucketAt_some h).2.2

theorem bucketAt_set_same {t : List strHashTable} {i : Int} {b : strHashTable}
    (h : bucketAt t i = some b) (b1 : strHashTable) :
    bucketAt (t.set i.toNat b1) i = some b1 := by
  obtain ⟨h0, hlt, -⟩ := bucketAt_some h
  simp [bucketAt, h0, List.getElem?_set, hlt]

theorem bucketAt_set_other (t : List strHashTable) {i j : Int} (h0 : 0 ≤ i)
    (hij : i ≠ j) (b1 : strHashTable) :
    bucketAt (t.set i.toNat b1) j = bucketAt t j := by
  unfold bucketAt
  split
  · rename_i hj
    have : i.toNat ≠ j.toNat := by omega
    simp [List.getElem?_set, this]
  · rfl

/-! ## The loops -/

theorem searchLoop_eq_none {k : CString} {l : List CString} {n : Nat} :
    searchLoop k l n = none ↔ k ∉ l := by
  induction l generalizing n with
  | nil => simp [searchLoop]
  | cons d l ih =>
    unfold searchLoop
    by_cases h : d = k
    · simp [h]
    · have h1 : ¬ k = d := fun e => h e.symm
      simp [h, h1, ih]

theorem search_eq {t : List strHashTable} {N i : Int} {k : CString} {b : strHashTable}
    (hh : HashFunction N k = some i) (hb : bucketAt t i = some b) :
    SearchHashTable t N k = some (if k ∈ b.chain then i else -1) := by
  unfold SearchHashTable
  simp only [hh, hb]
  by_cases hm : k ∈ b.chain
  · rw [if_pos hm]
    cases hs : searchLoop k b.chain 0 with
    | none => exact absurd hm (searchLoop_eq_none.mp hs)
    | some _ => rfl
  · rw [if_neg hm, searchLoop_eq_none.mpr hm]

theorem found_iff {t : List strHashTable} {N i : Int} {k : CString} {b : strHashTable}
    (hh : HashFunction N k = some i) (hb : bucketAt t i = some b) :
    Found t N k ↔ k ∈ b.chain := by
  have h0 := (bucketAt_some hb).1
  unfold Found
  rw [search_eq hh hb]
  by_cases hm : k ∈ b.chain
  · simp only [hm, if_true, iff_true]
    exact ⟨i, rfl, by omega⟩
  · simp only [hm, if_false, iff_false]
    rintro ⟨j, hj, hne⟩
    exact hne (Option.some.inj hj).symm

theorem found_inv {t : List strHashTable} {N : Int} {k : CString} (h : Found t N k) :
    ∃ i b, HashFunction N k = some i ∧ bucketAt t i = some b ∧ k ∈ b.chain := by
  obtain ⟨j, hj, hne⟩ := h
  cases hh : HashFunction N k with
  | none => simp [SearchHashTable, hh] at hj
  | some i =>
    cases hb : bucketAt t i with
    | none => simp [SearchHashTable, hh, hb] at hj
    | some b =>
      refine ⟨i, b, rfl, hb, ?_⟩
      by_contra hm
      rw [search_eq hh hb, if_neg hm] at hj
      exact hne (Option.some.inj hj).symm

/-- Outcome of the insertion loop when it does not return early: the chain
from the entered node is some nodes, none of which holds the key unless the
key is empty, followed by the new node. -/
theorem addLoop_some {k new : CString} {bF : Bool} {d : CString} {rest : List CString}
    {n : strHashTable} (h : addLoop k new bF d rest = some n) :
    ∃ pre : List CString, n.chain = pre ++ [new] ∧ ∀ x ∈ pre, x = [] ∨ x ≠ k := by
  induction rest generalizing bF d n with
  | nil =>
    unfold addLoop at h
    split at h
    · rename_i hd
      split at h
      · cases h; exact ⟨[], rfl, by simp⟩
      · cases h; exact ⟨[d], rfl, by simp [hd]⟩
    · split at h
      · cases h
      · rename_i hne
        cases h; exact ⟨[d], rfl, by simp [hne]⟩
  | cons e rest ih =>
    unfold addLoop at h
    split at h
    · rename_i hd
      split at h
      · cases h; exact ⟨[], rfl, by simp⟩
      · cases h; exact ⟨[d], rfl, by simp [hd]⟩
    · split at h
      · cases h
      · rename_i hne
        simp only [Option.map_eq_some'] at h
        obtain ⟨m, hm, rfl⟩ := h
        obtain ⟨pre, hpre, hall⟩ := ih hm
        refine ⟨d :: pre, ?_, ?_⟩
        · simp only [strHashTable.chain] at hpre ⊢
          rw [hpre]; rfl
        · intro x hx
          rcases List.mem_cons.mp hx with rfl | hx
          · exact Or.inr hne
          · exact hall x hx

/-- Inversion of a call of `AddEntryToHashTable` that returns `0`. -/
theorem add_zero_inv {B : Nat} {c : Bool} {t t1 : List strHashTable} {N : Int}
    {k : CString} (h : AddEntryToHashTable B c t N k = some (0, t1)) :
    ∃ i b n, HashFunction N k = some i ∧ bucketAt t i = some b ∧
      addLoop k (k.take B) false b.szData b.pstrNext = some n ∧
      t1 = t.set i.toNat n := by
  unfold AddEntryToHashTable at h
  split at h
  · cases h
  · rename_i i hi
    split at h
    · cases h
    · rename_i b hb
      split at h
      · simp at h
      · rename_i n hn
        split at h
        · simp only [Option.some.injEq, Prod.mk.injEq, true_and] at h
          exact ⟨i, b, n, hi, hb, hn, h.symm⟩
        · simp at h

theorem deleteLoop_append {k : CString} {pre : List CString} (post : List CString)
    (h : k ∉ pre) : deleteLoop k (pre ++ k :: post) = some (pre ++ post) := by
  induction pre with
  | nil => cases post <;> simp [deleteLoop]
  | cons d pre ih =>
    have hd : d ≠ k := fun e => h (by simp [e])
    have hp : k ∉ pre := fun e => h (List.mem_cons_of_mem _ e)
    simp [deleteLoop, hd, ih hp]

theorem deleteLoop_eq_none {k : CString} {l : List CString} (h : k ∉ l) :
    deleteLoop k l = none := by
  induction l with
  | nil => rfl
  | cons d l ih =>
    have hd : d ≠ k := fun e => h (by simp [e])
    have hp : k ∉ l := fun e => h (List.mem_cons_of_mem _ e)
    simp [deleteLoop, hd, ih hp]

theorem searchLoop_some {k : CString} {l : List CString} {n m : Nat}
    (h : searchLoop k l n = some m) :
    n ≤ m ∧ l[m - n]? = some k ∧ ∀ j, j < m - n → l[j]? ≠ some k := by
  induction l generalizing n with
  | nil => simp [searchLoop] at h
  | cons d l ih =>
    unfold searchLoop at h
    by_cases hd : d = k
    · simp only [hd, if_true, Option.some.injEq] at h
      subst h
      simp [hd]
    · simp only [hd, if_false] at h
      obtain ⟨hle, hget, hbefore⟩ := ih h
      have hsub : m - n = (m - (n + 1)) + 1 := by omega
      refine ⟨by omega, ?_, ?_⟩
      · rw [hsub, List.getElem?_cons_succ]; exact hget
      · intro j hj
        cases j with
        | zero =>
          simp only [List.getElem?_cons_zero, ne_eq, Option.some.injEq]
          exact hd
        | succ j =>
          rw [List.getElem?_cons_succ]
          exact hbefore j (by omega)

theorem foldl_add_eq_sum (l : List Int) (a : Int) :
    l.foldl (fun lnSum c => lnSum + c) a = a + l.sum := by
  induction l generalizing a with
  | nil => simp
  | cons c l ih => simp [ih, add_assoc]

theorem hash_eq {N : Int} (hN : N ≠ 0) (k : CString) :
    HashFunction N k = some (Int.tmod k.sum N) := by
  simp [HashFunction, hN, foldl_add_eq_sum]

theorem mem_first_split {k : CString} {l : List CString} (h : k ∈ l) :
    ∃ pre post, l = pre ++ k :: post ∧ k ∉ pre := by
  induction l with
  | nil => cases h
  | cons d l ih =>
    by_cases hdk : d = k
    · exact ⟨[], l, by rw [hdk]; rfl, by simp⟩
    · have hl : k ∈ l := by
        rcases List.mem_cons.mp h with h | h
        · exact absurd h.symm hdk
        · exact h
      obtain ⟨pre, post, he, hn⟩ := ih hl
      refine ⟨d :: pre, post, by rw [he]; rfl, ?_⟩
      intro hk
      rcases List.mem_cons.mp hk with hk | hk
      · exact hdk hk.symm
      · exact hn hk

theorem deleteLoop_eq_none_iff {k : CString} {l : List CString} :
    deleteLoop k l = none ↔ k ∉ l := by
  constructor
  · intro hl hm
    obtain ⟨pre, post, he, hn⟩ := mem_first_split hm
    rw [he, deleteLoop_append post hn] at hl
    cases hl
  · exact deleteLoop_eq_none

theorem delete_head_eq {t : List strHashTable} {N i : Int} {k : CString}
    {b : strHashTable} (hh : HashFunction N k = some i) (hb : bucketAt t i = some b)
    (hd : b.szData = k) :
    DeleteEntryFromHashTable t N k = some (0, t.set i.toNat ⟨[], b.pstrNext⟩) := by
  unfold DeleteEntryFromHashTable
  simp [hh, hb, hd]

theorem delete_overflow_eq {t : List strHashTable} {N i : Int} {k : CString}
    {b : strHashTable} (hh : HashFunction N k = some i) (hb : bucketAt t i = some b)
    (hd : b.szData ≠ k) :
    DeleteEntryFromHashTable t N k =
      match deleteLoop k b.pstrNext with
      | none => some (1, t)
      | some l => some (0, t.set i.toNat ⟨b.szData, l⟩) := by
  unfold DeleteEntryFromHashTable
  simp [hh, hb, hd]

/-! ## Tables without an empty overflow record -/

theorem addLoop_empty_head (k new : CString) (rest : List CString) :
    addLoop k new false [] rest = some ⟨new, []⟩ := by
  unfold addLoop
  simp

theorem addLoop_of_nonempty {k new : CString} {bF : Bool} {d : CString}
    {rest : List CString} (hd : d ≠ []) (hrest : ∀ x ∈ rest, x ≠ []) :
    addLoop k new bF d rest
      = if k ∈ d :: rest then none else some ⟨d, rest ++ [new]⟩ := by
  induction rest generalizing bF d with
  | nil =>
    unfold addLoop
    by_cases hk : d = k
    · subst hk
      simp [hd]
    · have hk1 : ¬ k = d := fun e => hk e.symm
      simp [hd, hk, hk1]
  | cons e rest ih =>
    have he : e ≠ [] := hrest e (by simp)
    have hr : ∀ x ∈ rest, x ≠ [] := fun x hx => hrest x (List.mem_cons_of_mem _ hx)
    unfold addLoop
    by_cases hk : d = k
    · subst hk
      simp [hd]
    · have hk1 : ¬ k = d := fun e => hk e.symm
      simp only [hd, hk, if_false]
      rw [ih he hr]
      by_cases hm : k ∈ e :: rest
      · simp [hm]
      · simp [hm, hk1]

/-- What `AddEntryToHashTable` does on a table without an empty overflow
record. -/
theorem add_eq_of_noEmpty {B : Nat} {c : Bool} {t : List strHashTable} {N i : Int}
    {k : CString} {b : strHashTable} (hinv : NoEmptyOverflow t)
    (hh : HashFunction N k = some i) (hb : bucketAt t i = some b) :
    AddEntryToHashTable B c t N k =
      if b.szData = [] then
        (if c then some (0, t.set i.toNat ⟨k.take B, []⟩) else some (-1, t))
      else if k ∈ b.chain then some (1, t)
      else if c then some (0, t.set i.toNat ⟨b.szData, b.pstrNext ++ [k.take B]⟩)
      else some (-1, t) := by
  unfold AddEntryToHashTable
  simp only [hh, hb]
  by_cases hd : b.szData = []
  · rw [hd, addLoop_empty_head]
    simp
  · rw [addLoop_of_nonempty hd (hinv b (bucketAt_mem hb)), if_neg hd]
    by_cases hm : k ∈ b.chain
    · have hm1 : k ∈ b.szData :: b.pstrNext := hm
      simp [hm, hm1]
    · have hm1 : k ∉ b.szData :: b.pstrNext := hm
      simp [hm, hm1]

theorem noEmpty_set {t : List strHashTable} (hinv : NoEmptyOverflow t) (j : Nat)
    {n : strHashTable} (hn : ∀ d ∈ n.pstrNext, d ≠ []) :
    NoEmptyOverflow (t.set j n) := by
  intro b hb
  rcases List.mem_or_eq_of_mem_set hb with h | h
  · exact hinv b h
  · rw [h]; exact hn

theorem deleteLoop_subset {k : CString} {l l1 : List CString}
    (h : deleteLoop k l = some l1) : ∀ x ∈ l1, x ∈ l := by
  induction l generalizing l1 with
  | nil => cases h
  | cons d l ih =>
    unfold deleteLoop at h
    by_cases hd : d = k
    · simp only [hd, ne_eq, not_true_eq_false, if_false, Option.some.injEq] at h
      intro x hx
      have : l1 = l := by
        rw [← h]; split <;> simp_all
      rw [this] at hx
      exact List.mem_cons_of_mem _ hx
    · simp only [ne_eq, hd, not_false_eq_true, if_true, Option.map_eq_some'] at h
      obtain ⟨l2, hl2, rfl⟩ := h
      intro x hx
      rcases List.mem_cons.mp hx with rfl | hx
      · simp
      · exact List.mem_cons_of_mem _ (ih hl2 x hx)

theorem noEmpty_add {B : Nat} {c : Bool} {t t1 : List strHashTable} {N : Int}
    {k : CString} {r : Int} (hB : 0 < B) (hk : k ≠ []) (hinv : NoEmptyOverflow t)
    (h : AddEntryToHashTable B c t N k = some (r, t1)) : NoEmptyOverflow t1 := by
  have hnew : k.take B ≠ [] := by
    cases k with
    | nil => exact absurd rfl hk
    | cons a k =>
      obtain ⟨m, rfl⟩ : ∃ m, B = m + 1 := ⟨B - 1, by omega⟩
      simp
  cases hh : HashFunction N k with
  | none => simp [AddEntryToHashTable, hh] at h
  | some i =>
    cases hb : bucketAt t i with
    | none => simp [AddEntryToHashTable, hh, hb] at h
    | some b =>
      rw [add_eq_of_noEmpty hinv hh hb] at h
      have hbn := hinv b (bucketAt_mem hb)
      split at h
      · split at h
        · cases h
          exact noEmpty_set hinv _ (by simp)
        · cases h; exact hinv
      · split at h
        · cases h; exact hinv
        · split at h
          · cases h
            refine noEmpty_set hinv _ ?_
            intro d hd
            rcases List.mem_append.mp hd with hd | hd
            · exact hbn d hd
            · rw [List.mem_singleton.mp hd]; exact hnew
          · cases h; exact hinv

theorem noEmpty_delete {t t1 : List strHashTable} {N : Int} {k : CString} {r : Int}
    (hinv : NoEmptyOverflow t)
    (h : DeleteEntryFromHashTable t N k = some (r, t1)) : NoEmptyOverflow t1 := by
  cases hh : HashFunction N k with
  | none => simp [DeleteEntryFromHashTable, hh] at h
  | some i =>
    cases hb : bucketAt t i with
    | none => simp [DeleteEntryFromHashTable, hh, hb] at h
    | some b =>
      have hbn := hinv b (bucketAt_mem hb)
      by_cases hd : b.szData = k
      · rw [delete_head_eq hh hb hd] at h
        cases h
        exact noEmpty_set hinv _ hbn
      · rw [delete_overflow_eq hh hb hd] at h
        cases hl : deleteLoop k b.pstrNext with
        | none =>
          rw [hl] at h
          cases h; exact hinv
        | some l =>
          rw [hl] at h
          cases h
          exact noEmpty_set hinv _ (fun d hd => hbn d (deleteLoop_subset hl d hd))

theorem noEmpty_newTable (n : Nat) : NoEmptyOverflow (newTable n) := by
  intro b hb d hd
  rw [newTable, List.mem_replicate] at hb
  rw [hb.2] at hd
  cases hd

theorem noEmpty_of_reachable {B : Nat} {N : Int} {t : List strHashTable}
    (hB : 0 < B) (h : Reachable B N t) : NoEmptyOverflow t := by
  induction h with
  | init => exact noEmpty_newTable _
  | add _ hk hadd ih => exact noEmpty_add hB hk ih hadd
  | delete _ _ hdel ih => exact noEmpty_delete ih hdel

theorem search_neg_inv {t : List strHashTable} {N : Int} {k : CString}
    (h : SearchHashTable t N k = some (-1)) :
    ∃ i b, HashFunction N k = some i ∧ bucketAt t i = some b ∧ k ∉ b.chain := by
  cases hh : HashFunction N k with
  | none => simp [SearchHashTable, hh] at h
  | some i =>
    cases hb : bucketAt t i with
    | none => simp [SearchHashTable, hh, hb] at h
    | some b =>
      refine ⟨i, b, rfl, hb, ?_⟩
      intro hm
      rw [search_eq hh hb, if_pos hm] at h
      have h0 := (bucketAt_some hb).1
      have := Option.some.inj h
      omega

/-- A successful insertion of a non-empty key that fits the payload into a
table without an empty overflow record: the bucket afterwards. -/
theorem add_zero_noEmpty {B : Nat} {c : Bool} {t t1 : List strHashTable} {N : Int}
    {k : CString} (hinv : NoEmptyOverflow t) (hne : k ≠ []) (hk : k.length ≤ B)
    (h : AddEntryToHashTable B c t N k = some (0, t1)) :
    ∃ i b n, HashFunction N k = some i ∧ bucketAt t i = some b ∧
      t1 = t.set i.toNat n ∧ n.szData ≠ [] ∧ k ∈ n.chain ∧
      (∀ d ∈ n.pstrNext, d ≠ []) := by
  obtain ⟨i, b, n, hh, hb, hn, rfl⟩ := add_zero_inv h
  rw [List.take_of_length_le hk] at hn
  refine ⟨i, b, n, hh, hb, rfl, ?_⟩
  have hbn := hinv b (bucketAt_mem hb)
  by_cases hd : b.szData = []
  · rw [hd, addLoop_empty_head] at hn
    cases hn
    exact ⟨hne, by simp [strHashTable.chain], by simp⟩
  · rw [addLoop_of_nonempty hd hbn] at hn
    split at hn
    · cases hn
    · cases hn
      refine ⟨hd, by simp [strHashTable.chain], ?_⟩
      intro d hd1
      rcases List.mem_append.mp hd1 with hd1 | hd1
      · exact hbn d hd1
      · rw [List.mem_singleton.mp hd1]; exact hne

theorem liveCount_set {t : List strHashTable} {j : Nat} {b : strHashTable}
    (h : t[j]? = some b) (n : strHashTable) :
    liveCount (t.set j n) + (b.chain.filter (fun d => decide (d ≠ []))).length
      = liveCount t + (n.chain.filter (fun d => decide (d ≠ []))).length := by
  induction t generalizing j with
  | nil => simp at h
  | cons a t ih =>
    cases j with
    | zero =>
      simp only [List.getElem?_cons_zero, Option.some.injEq] at h
      subst h
      simp only [liveCount, List.set_cons_zero, List.map_cons, List.sum_cons]
      omega
    | succ j =>
      simp only [List.getElem?_cons_succ] at h
      have := ih h
      simp only [liveCount, List.set_cons_succ, List.map_cons, List.sum_cons] at this ⊢
      omega

/-! ## Round trips -/

/-- C1: for a table of `N > 0` buckets and a key that fits the payload, when
`AddEntryToHashTable` returns `0` a search of the key in the resulting table
reports a match and returns exactly `HashFunction N k`. -/
theorem add_then_search (BUFSIZ : Nat) (bCalloc : Bool) (N : Int)
    (t t1 : List strHashTable) (k : CString)
    (_hN : 0 < N) (_hlen : (t.length : Int) = N) (hk : k.length ≤ BUFSIZ)
    (h : AddEntryToHashTable BUFSIZ bCalloc t N k = some (0, t1)) :
    SearchHashTable t1 N k = HashFunction N k ∧ Found t1 N k := by
  obtain ⟨i, b, n, hh, hb, hn, rfl⟩ := add_zero_inv h
  obtain ⟨pre, hpre, -⟩ := addLoop_some hn
  rw [List.take_of_length_le hk] at hpre
  have hb1 := bucketAt_set_same hb n
  have hm : k ∈ n.chain := by rw [hpre]; simp
  refine ⟨?_, (found_iff hh hb1).mpr hm⟩
  rw [search_eq hh hb1, if_pos hm, hh]

/-- C1 at a concrete input: `"ab"` inserted into a fresh table of 5 buckets
with `BUFSIZ = 8192`. -/
theorem add_then_search_witness :
    AddEntryToHashTable 8192 true (newTable 5) 5 (ofString "ab") = some (0, table5 "ab" []) ∧
      SearchHashTable (table5 "ab" []) 5 (ofString "ab") = HashFunction 5 (ofString "ab") ∧
      Found (table5 "ab" []) 5 (ofString "ab") :=
  ⟨by decide,
    add_then_search 8192 true 5 (newTable 5) (table5 "ab" []) (ofString "ab")
      (by decide) (by decide) (by decide) (by decide)⟩

/-- C2: for a table of `N > 0` buckets and a non-empty key that fits the
payload, when `AddEntryToHashTable` returns `0`, deleting the key from the
resulting table returns `0` and a following search returns `-1`. -/
theorem add_delete_search (BUFSIZ : Nat) (bCalloc : Bool) (N : Int)
    (t t1 : List strHashTable) (k : CString)
    (_hN : 0 < N) (_hlen : (t.length : Int) = N) (hne : k ≠ [])
    (hk : k.length ≤ BUFSIZ)
    (h : AddEntryToHashTable BUFSIZ bCalloc t N k = some (0, t1)) :
    ∃ t2, DeleteEntryFromHashTable t1 N k = some (0, t2) ∧
      SearchHashTable t2 N k = some (-1) := by
  obtain ⟨i, b, n, hh, hb, hn, rfl⟩ := add_zero_inv h
  obtain ⟨pre, hpre, hall⟩ := addLoop_some hn
  rw [List.take_of_length_le hk] at hpre
  have hb1 := bucketAt_set_same hb n
  have hnot : k ∉ pre := by
    intro hm
    rcases hall k hm with h1 | h1
    · exact hne h1
    · exact h1 rfl
  cases pre with
  | nil =>
    have hd : n.szData = k := by
      have := congrArg List.head? hpre
      simpa [strHashTable.chain] using this
    refine ⟨_, delete_head_eq hh hb1 hd, ?_⟩
    have hb2 := bucketAt_set_same hb1 (⟨[], n.pstrNext⟩ : strHashTable)
    have htl : n.pstrNext = [] := by
      have := congrArg List.tail hpre
      simpa [strHashTable.chain] using this
    rw [search_eq hh hb2, if_neg]
    simp [strHashTable.chain, htl, hne]
  | cons p ps =>
    have hd : n.szData = p := by
      have := congrArg List.head? hpre
      simpa [strHashTable.chain] using this
    have htl : n.pstrNext = ps ++ [k] := by
      have := congrArg List.tail hpre
      simpa [strHashTable.chain] using this
    have hpk : p ≠ k := fun e => hnot (by simp [e])
    have hps : k ∉ ps := fun e => hnot (List.mem_cons_of_mem _ e)
    have hdel := delete_overflow_eq hh hb1 (by rw [hd]; exact hpk)
    rw [htl, deleteLoop_append [] hps] at hdel
    simp only [List.append_nil] at hdel
    refine ⟨_, hdel, ?_⟩
    have hb2 := bucketAt_set_same hb1 (⟨n.szData, ps⟩ : strHashTable)
    rw [search_eq hh hb2, if_neg]
    simpa [strHashTable.chain, hd] using hnot

/-- C2 at a concrete input: `"ab"` inserted into a fresh table of 5 buckets
with `BUFSIZ = 8192`, then deleted. -/
theorem add_delete_search_witness :
    AddEntryToHashTable 8192 true (newTable 5) 5 (ofString "ab") = some (0, table5 "ab" []) ∧
      ∃ t2, DeleteEntryFromHashTable (table5 "ab" []) 5 (ofString "ab") = some (0, t2) ∧
        SearchHashTable t2 5 (ofString "ab") = some (-1) :=
  ⟨by decide,
    add_delete_search 8192 true 5 (newTable 5) (table5 "ab" []) (ofString "ab")
      (by decide) (by decide) (by decide) (by decide) (by decide)⟩

/-! ## Insertion into an emptied bucket head -/

/-- C3: evaluation of the code on a reachable table where the claim fails.
With 5 buckets, `"ab"` and `"ba"` both hash to bucket 0; after inserting both
and deleting `"ab"` the key `"ba"` is found, yet inserting `"ba"` again returns
`0`, not `1`, and the table is changed. -/
theorem add_duplicate_behind_empty_head :
    AddEntryToHashTable 8192 true (newTable 5) 5 (ofString "ab")
        = some (0, table5 "ab" []) ∧
      AddEntryToHashTable 8192 true (table5 "ab" []) 5 (ofString "ba")
        = some (0, table5 "ab" ["ba"]) ∧
      DeleteEntryFromHashTable (table5 "ab" ["ba"]) 5 (ofString "ab")
        = some (0, table5 "" ["ba"]) ∧
      SearchHashTable (table5 "" ["ba"]) 5 (ofString "ba") = some 0 ∧
      AddEntryToHashTable 8192 true (table5 "" ["ba"]) 5 (ofString "ba")
        = some (0, table5 "ba" []) ∧
      table5 "ba" [] ≠ table5 "" ["ba"] := by
  decide

/-- C4: evaluation of the code on a reachable table where the claim fails.
With 5 buckets, `"ab"`, `"ba"` and `"d"` hash to bucket 0; after inserting
`"ab"` and `"ba"` and deleting the head `"ab"`, the key `"ba"` is found; the
insertion of `"d"` returns `0` and overwrites the head together with its link,
after which `"ba"` is no longer found. -/
theorem add_into_empty_head_drops_chain :
    AddEntryToHashTable 8192 true (newTable 5) 5 (ofString "ab")
        = some (0, table5 "ab" []) ∧
      AddEntryToHashTable 8192 true (table5 "ab" []) 5 (ofString "ba")
        = some (0, table5 "ab" ["ba"]) ∧
      DeleteEntryFromHashTable (table5 "ab" ["ba"]) 5 (ofString "ab")
        = some (0, table5 "" ["ba"]) ∧
      SearchHashTable (table5 "" ["ba"]) 5 (ofString "ba") = some 0 ∧
      AddEntryToHashTable 8192 true (table5 "" ["ba"]) 5 (ofString "d")
        = some (0, table5 "d" []) ∧
      SearchHashTable (table5 "d" []) 5 (ofString "ba") = some (-1) := by
  decide

/-! ## Listing -/

/-- C7: evaluation of the code on the freshly built table of 5 buckets.
`ListHashTable` returns `5`, one per bucket head, although no record has a
non-empty payload. -/
theorem list_fresh_table :
    ListHashTable (newTable 5) 5 = some 5 ∧ liveCount (newTable 5) = 0 := by
  decide

/-- C8: evaluation of the code on the scenario of the specification, with 5
buckets.  The three insertions return `0`, `0`, `1`, `"banana"` is found (in
bucket 4), the deletion of `"apple"` returns `0` and `"apple"` is then not
found; but `ListHashTable` returns `5` both times, not `2` and `1`. -/
theorem scenario_apple_banana :
    AddEntryToHashTable 8192 true (newTable 5) 5 (ofString "apple")
        = some (0, [⟨ofString "apple", []⟩, ⟨[], []⟩, ⟨[], []⟩, ⟨[], []⟩, ⟨[], []⟩]) ∧
      AddEntryToHashTable 8192 true
          [⟨ofString "apple", []⟩, ⟨[], []⟩, ⟨[], []⟩, ⟨[], []⟩, ⟨[], []⟩] 5
          (ofString "banana")
        = some (0, [⟨ofString "apple", []⟩, ⟨[], []⟩, ⟨[], []⟩, ⟨[], []⟩,
            ⟨ofString "banana", []⟩]) ∧
      AddEntryToHashTable 8192 true
          [⟨ofString "apple", []⟩, ⟨[], []⟩, ⟨[], []⟩, ⟨[], []⟩, ⟨ofString "banana", []⟩] 5
          (ofString "apple")
        = some (1, [⟨ofString "apple", []⟩, ⟨[], []⟩, ⟨[], []⟩, ⟨[], []⟩,
            ⟨ofString "banana", []⟩]) ∧
      ListHashTable
          [⟨ofString "apple", []⟩, ⟨[], []⟩, ⟨[], []⟩, ⟨[], []⟩, ⟨ofString "banana", []⟩] 5
        = some 5 ∧
      SearchHashTable
          [⟨ofString "apple", []⟩, ⟨[], []⟩, ⟨[], []⟩, ⟨[], []⟩, ⟨ofString "banana", []⟩] 5
          (ofString "banana")
        = some 4 ∧
      DeleteEntryFromHashTable
          [⟨ofString "apple", []⟩, ⟨[], []⟩, ⟨[], []⟩, ⟨[], []⟩, ⟨ofString "banana", []⟩] 5
          (ofString "apple")
        = some (0, [⟨[], []⟩, ⟨[], []⟩, ⟨[], []⟩, ⟨[], []⟩, ⟨ofString "banana", []⟩]) ∧
      SearchHashTable
          [⟨[], []⟩, ⟨[], []⟩, ⟨[], []⟩, ⟨[], []⟩, ⟨ofString "banana", []⟩] 5
          (ofString "apple")
        = some (-1) ∧
      ListHashTable
          [⟨[], []⟩, ⟨[], []⟩, ⟨[], []⟩, ⟨[], []⟩, ⟨ofString "banana", []⟩] 5
        = some 5 := by
  decide

/-! ## Deletion -/

/-- C9: when the first record of the chain of bucket `HashFunction N k` that
holds `k` is not the bucket head, `DeleteEntryFromHashTable` returns `0` and
the chain of that bucket becomes the original chain without that one record,
the other records keeping their order; `pre` are the overflow records before
the removed one and `post` the records behind it (none when it was the last). -/
theorem delete_overflow_record (N : Int) (t : List strHashTable) (k : CString)
    (i : Int) (b : strHashTable) (pre post : List CString)
    (hh : HashFunction N k = some i) (hb : bucketAt t i = some b)
    (hhead : b.szData ≠ k) (hchain : b.pstrNext = pre ++ k :: post)
    (hfirst : k ∉ pre) :
    DeleteEntryFromHashTable t N k
      = some (0, t.set i.toNat ⟨b.szData, pre ++ post⟩) := by
  rw [delete_overflow_eq hh hb hhead, hchain, deleteLoop_append post hfirst]

/-- C9 at a concrete input: bucket 0 of a table of 5 buckets holds the chain
`["ab", "ba", "d"]`; deleting `"ba"` leaves `["ab", "d"]`. -/
theorem delete_overflow_record_witness :
    HashFunction 5 (ofString "ba") = some 0 ∧
      bucketAt (table5 "ab" ["ba", "d"]) 0 = some ⟨ofString "ab", [ofString "ba", ofString "d"]⟩ ∧
      DeleteEntryFromHashTable (table5 "ab" ["ba", "d"]) 5 (ofString "ba")
        = some (0, table5 "ab" ["d"]) :=
  ⟨by decide, by decide,
    delete_overflow_record 5 (table5 "ab" ["ba", "d"]) (ofString "ba") 0
      ⟨ofString "ab", [ofString "ba", ofString "d"]⟩ [] [ofString "d"]
      (by decide) (by decide) (by decide) (by decide) (by decide)⟩

/-- C10: when the non-empty key `k` is the payload of the head of bucket
`HashFunction N k`, `DeleteEntryFromHashTable` returns `0`; afterwards that
bucket is the same head with an empty payload and the same link, and every
other record of the chain is still found by `SearchHashTable`: each one that
hashes to this bucket is found, and each one that was found before the call is
found after it. -/
theorem delete_head_record (N : Int) (t : List strHashTable) (k : CString)
    (i : Int) (b : strHashTable)
    (hh : HashFunction N k = some i) (hb : bucketAt t i = some b)
    (_hne : k ≠ []) (hhead : b.szData = k) :
    ∃ t1, DeleteEntryFromHashTable t N k = some (0, t1) ∧
      bucketAt t1 i = some ⟨[], b.pstrNext⟩ ∧
      (∀ p ∈ b.pstrNext, HashFunction N p = some i → Found t1 N p) ∧
      (∀ p ∈ b.pstrNext, Found t N p → Found t1 N p) := by
  have hb1 := bucketAt_set_same hb (⟨[], b.pstrNext⟩ : strHashTable)
  refine ⟨_, delete_head_eq hh hb hhead, hb1, ?_, ?_⟩
  · intro p hp hhp
    exact (found_iff hhp hb1).mpr (List.mem_cons_of_mem _ hp)
  · intro p hp hf
    obtain ⟨j, b2, hj, hb2, hm⟩ := found_inv hf
    by_cases hij : i = j
    · subst hij
      exact (found_iff hj hb1).mpr (List.mem_cons_of_mem _ hp)
    · have := bucketAt_set_other t (bucketAt_some hb).1 hij (⟨[], b.pstrNext⟩ : strHashTable)
      exact (found_iff hj (this.trans hb2)).mpr hm

/-- C10 at a concrete input: bucket 0 of a table of 5 buckets holds the chain
`["ab", "ba", "d"]`; deleting the head `"ab"`. -/
theorem delete_head_record_witness :
    HashFunction 5 (ofString "ab") = some 0 ∧
      bucketAt (table5 "ab" ["ba", "d"]) 0 = some ⟨ofString "ab", [ofString "ba", ofString "d"]⟩ ∧
      ∃ t1, DeleteEntryFromHashTable (table5 "ab" ["ba", "d"]) 5 (ofString "ab") = some (0, t1) ∧
        bucketAt t1 0 = some ⟨[], [ofString "ba", ofString "d"]⟩ ∧
        (∀ p ∈ [ofString "ba", ofString "d"], HashFunction 5 p = some 0 → Found t1 5 p) ∧
        (∀ p ∈ [ofString "ba", ofString "d"],
          Found (table5 "ab" ["ba", "d"]) 5 p → Found t1 5 p) :=
  ⟨by decide, by decide,
    delete_head_record 5 (table5 "ab" ["ba", "d"]) (ofString "ab") 0
      ⟨ofString "ab", [ofString "ba", ofString "d"]⟩
      (by decide) (by decide) (by decide) (by decide)⟩

/-! ## Repeated and colliding insertions -/

/-- C5, as stated, fails on the empty key.  In the table reached by inserting
`"d"` into a fresh table of 5 buckets the empty key is not stored; inserting
it returns `0`, inserting it again returns `0` once more (not `1`), and the
number of records with a non-empty payload is the same as before. -/
theorem add_empty_key_twice :
    AddEntryToHashTable 8192 true (newTable 5) 5 (ofString "d")
        = some (0, table5 "d" []) ∧
      SearchHashTable (table5 "d" []) 5 (ofString "") = some (-1) ∧
      AddEntryToHashTable 8192 true (table5 "d" []) 5 (ofString "")
        = some (0, table5 "d" [""]) ∧
      AddEntryToHashTable 8192 true (table5 "d" [""]) 5 (ofString "")
        = some (0, table5 "d" ["", ""]) ∧
      liveCount (table5 "d" ["", ""]) = liveCount (table5 "d" []) := by
  decide

/-- C5, amended: in a table reachable by insertions and deletions of non-empty
keys, for a non-empty key that fits the payload and is not stored, when the
allocation succeeds the first `AddEntryToHashTable` returns `0`, a following
one returns `1` and changes nothing, and, provided the head of the key's
bucket is non-empty or has no overflow chain, the number of records with a
non-empty payload after both calls is one more than before the first. -/
theorem add_twice (BUFSIZ : Nat) (N : Int) (t : List strHashTable) (k : CString)
    (hB : 0 < BUFSIZ) (_hN : 0 < N) (hr : Reachable BUFSIZ N t)
    (hne : k ≠ []) (hk : k.length ≤ BUFSIZ)
    (hs : SearchHashTable t N k = some (-1)) :
    ∃ t1, AddEntryToHashTable BUFSIZ true t N k = some (0, t1) ∧
      (∀ c, AddEntryToHashTable BUFSIZ c t1 N k = some (1, t1)) ∧
      (∀ i b, HashFunction N k = some i → bucketAt t i = some b →
        b.szData ≠ [] ∨ b.pstrNext = [] → liveCount t1 = liveCount t + 1) := by
  have hinv := noEmpty_of_reachable hB hr
  obtain ⟨i, b, hh, hb, hm⟩ := search_neg_inv hs
  have hadd := add_eq_of_noEmpty (B := BUFSIZ) (c := true) hinv hh hb
  rw [if_neg hm, List.take_of_length_le hk] at hadd
  simp only [if_true] at hadd
  have hidx := (bucketAt_some hb).2.2
  have hbn := hinv b (bucketAt_mem hb)
  by_cases hd : b.szData = []
  · rw [if_pos hd] at hadd
    refine ⟨_, hadd, ?_, ?_⟩
    · intro c
      have hinv1 : NoEmptyOverflow (t.set i.toNat ⟨k, []⟩) :=
        noEmpty_set hinv _ (by simp)
      rw [add_eq_of_noEmpty hinv1 hh (bucketAt_set_same hb _)]
      simp [hne, strHashTable.chain]
    · intro i1 b1 hh1 hb1 hor
      rw [hh] at hh1
      cases hh1
      rw [hb] at hb1
      cases hb1
      have hnil : b.pstrNext = [] := hor.resolve_left (fun h => h hd)
      have := liveCount_set hidx (⟨k, []⟩ : strHashTable)
      simp only [strHashTable.chain, hd, hnil, List.filter_cons, hne, ne_eq,
        not_true_eq_false, not_false_eq_true, decide_True, decide_False, if_true,
        List.filter_nil, List.length_cons, List.length_nil] at this
      simpa using this
  · rw [if_neg hd] at hadd
    refine ⟨_, hadd, ?_, ?_⟩
    · intro c
      have hinv1 : NoEmptyOverflow (t.set i.toNat ⟨b.szData, b.pstrNext ++ [k]⟩) := by
        refine noEmpty_set hinv _ ?_
        intro d hd1
        rcases List.mem_append.mp hd1 with hd1 | hd1
        · exact hbn d hd1
        · rw [List.mem_singleton.mp hd1]; exact hne
      rw [add_eq_of_noEmpty hinv1 hh (bucketAt_set_same hb _)]
      simp [hd, strHashTable.chain]
    · intro i1 b1 hh1 hb1 _
      rw [hh] at hh1
      cases hh1
      rw [hb] at hb1
      cases hb1
      have := liveCount_set hidx (⟨b.szData, b.pstrNext ++ [k]⟩ : strHashTable)
      simp only [strHashTable.chain, List.filter_cons, List.filter_append, hne, hd,
        ne_eq, not_false_eq_true, decide_True, if_true, List.filter_nil,
        List.length_cons, List.length_append, List.length_nil] at this
      omega

/-- C5 amended, at a concrete input: `"ba"` inserted twice into the table
reached by inserting `"ab"` into a fresh table of 5 buckets. -/
theorem add_twice_witness :
    Reachable 8192 5 (table5 "ab" []) ∧
      SearchHashTable (table5 "ab" []) 5 (ofString "ba") = some (-1) ∧
      ∃ t1, AddEntryToHashTable 8192 true (table5 "ab" []) 5 (ofString "ba") = some (0, t1) ∧
        (∀ c, AddEntryToHashTable 8192 c t1 5 (ofString "ba") = some (1, t1)) ∧
        (∀ i b, HashFunction 5 (ofString "ba") = some i →
          bucketAt (table5 "ab" []) i = some b →
          b.szData ≠ [] ∨ b.pstrNext = [] →
          liveCount t1 = liveCount (table5 "ab" []) + 1) :=
  have hr : Reachable 8192 5 (table5 "ab" []) :=
    Reachable.add (k := ofString "ab") (c := true) (r := 0) Reachable.init
      (by decide) (by decide)
  ⟨hr, by decide,
    add_twice 8192 5 (table5 "ab" []) (ofString "ba") (by decide) (by decide) hr
      (by decide) (by decide) (by decide)⟩

/-- C6, as stated, fails on the empty key.  On a fresh table of 5 buckets the
insertions of the empty key and then of `"d"` (both hash to bucket 0) both
return `0`, and afterwards the empty key is not found. -/
theorem add_empty_key_then_other :
    AddEntryToHashTable 8192 true (newTable 5) 5 (ofString "") = some (0, newTable 5) ∧
      AddEntryToHashTable 8192 true (newTable 5) 5 (ofString "d")
        = some (0, table5 "d" []) ∧
      ofString "" ≠ ofString "d" ∧
      SearchHashTable (table5 "d" []) 5 (ofString "") = some (-1) := by
  decide

/-- C6, amended: in a table reachable by insertions and deletions of non-empty
keys, for keys `k1 ≠ k2` that fit the payload, `k1` non-empty, when the
insertion of `k1` and then that of `k2` both return `0`, both keys are found
afterwards, whether or not they hash to the same bucket. -/
theorem add_two_keys (BUFSIZ : Nat) (N : Int) (t t1 t2 : List strHashTable)
    (k1 k2 : CString) (c1 c2 : Bool)
    (hB : 0 < BUFSIZ) (_hN : 0 < N) (hr : Reachable BUFSIZ N t)
    (hne : k1 ≠ []) (hk1 : k1.length ≤ BUFSIZ) (hk2 : k2.length ≤ BUFSIZ)
    (_hdiff : k1 ≠ k2)
    (h1 : AddEntryToHashTable BUFSIZ c1 t N k1 = some (0, t1))
    (h2 : AddEntryToHashTable BUFSIZ c2 t1 N k2 = some (0, t2)) :
    Found t2 N k1 ∧ Found t2 N k2 := by
  have hinv := noEmpty_of_reachable hB hr
  obtain ⟨i1, b1, n1, hh1, hb1, rfl, hhead1, hmem1, hn1⟩ := add_zero_noEmpty hinv hne hk1 h1
  have hbn1 := bucketAt_set_same hb1 n1
  obtain ⟨i2, b2, n2, hh2, hb2, hn2, rfl⟩ := add_zero_inv h2
  have hbn2 := bucketAt_set_same hb2 n2
  constructor
  · by_cases hij : i2 = i1
    · subst hij
      rw [hbn1] at hb2
      cases hb2
      rw [addLoop_of_nonempty hhead1 hn1] at hn2
      split at hn2
      · cases hn2
      · cases hn2
        refine (found_iff hh1 hbn2).mpr ?_
        simp only [strHashTable.chain] at hmem1 ⊢
        rcases List.mem_cons.mp hmem1 with h | h
        · simp [h]
        · exact List.mem_cons_of_mem _ (List.mem_append_left _ h)
    · have := bucketAt_set_other (t.set i1.toNat n1) (bucketAt_some hb2).1 hij n2
      exact (found_iff hh1 (this.trans hbn1)).mpr hmem1
  · obtain ⟨pre, hpre, -⟩ := addLoop_some hn2
    rw [List.take_of_length_le hk2] at hpre
    exact (found_iff hh2 hbn2).mpr (by rw [hpre]; simp)

/-- C6 amended, at a concrete input: the colliding keys `"ab"` and `"ba"`
inserted into a fresh table of 5 buckets. -/
theorem add_two_keys_witness :
    HashFunction 5 (ofString "ab") = HashFunction 5 (ofString "ba") ∧
      AddEntryToHashTable 8192 true (newTable 5) 5 (ofString "ab")
        = some (0, table5 "ab" []) ∧
      AddEntryToHashTable 8192 true (table5 "ab" []) 5 (ofString "ba")
        = some (0, table5 "ab" ["ba"]) ∧
      Found (table5 "ab" ["ba"]) 5 (ofString "ab") ∧
      Found (table5 "ab" ["ba"]) 5 (ofString "ba") :=
  ⟨by decide, by decide, by decide,
    add_two_keys 8192 5 (newTable 5) (table5 "ab" []) (table5 "ab" ["ba"])
      (ofString "ab") (ofString "ba") true true (by decide) (by decide)
      Reachable.init (by decide) (by decide) (by decide) (by decide)
      (by decide) (by decide)⟩

/-! ## Results of deletion and search -/

/-- C11: when the bucket `HashFunction N k` exists, `DeleteEntryFromHashTable`
returns a result `r` and a table such that `r` is positive exactly when no
record of the chain of that bucket holds `k`, which is exactly when
`SearchHashTable` returns `-1` on the same table; when `r` is positive the
table is unchanged, and otherwise `r` is `0`. -/
theorem delete_not_found_iff (N : Int) (t : List strHashTable) (k : CString)
    (i : Int) (b : strHashTable)
    (hh : HashFunction N k = some i) (hb : bucketAt t i = some b) :
    ∃ r t1, DeleteEntryFromHashTable t N k = some (r, t1) ∧
      (0 < r ↔ k ∉ b.chain) ∧
      (0 < r ↔ SearchHashTable t N k = some (-1)) ∧
      (0 < r → t1 = t) ∧ (¬ 0 < r → r = 0) := by
  have h0 := (bucketAt_some hb).1
  have hsearch : SearchHashTable t N k = some (-1) ↔ k ∉ b.chain := by
    rw [search_eq hh hb]
    by_cases hm : k ∈ b.chain
    · simp only [hm, if_true, not_true_eq_false, iff_false, Option.some.injEq]
      omega
    · simp [hm]
  by_cases hd : b.szData = k
  · have hm : k ∈ b.chain := by rw [← hd]; simp [strHashTable.chain]
    refine ⟨0, _, delete_head_eq hh hb hd, ?_, ?_, ?_, ?_⟩
    · simp [hm]
    · rw [hsearch]; simp [hm]
    · intro h; omega
    · intro _; rfl
  · have hdel := delete_overflow_eq hh hb hd
    cases hl : deleteLoop k b.pstrNext with
    | none =>
      rw [hl] at hdel
      have hm : k ∉ b.chain := by
        intro hm
        rcases List.mem_cons.mp hm with h | h
        · exact hd h.symm
        · exact deleteLoop_eq_none_iff.mp hl h
      refine ⟨1, t, hdel, ?_, ?_, ?_, ?_⟩
      · simp [hm]
      · rw [hsearch]; simp [hm]
      · intro _; rfl
      · intro h; omega
    | some l =>
      rw [hl] at hdel
      have hm : k ∈ b.chain := by
        by_contra hm
        have : k ∉ b.pstrNext := fun h => hm (List.mem_cons_of_mem _ h)
        rw [deleteLoop_eq_none this] at hl
        cases hl
      refine ⟨0, _, hdel, ?_, ?_, ?_, ?_⟩
      · simp [hm]
      · rw [hsearch]; simp [hm]
      · intro h; omega
      · intro _; rfl

/-- C11 at a concrete input: bucket 0 of a table of 5 buckets holds the chain
`["ab", "ba"]` and the key is `"d"`, which hashes to bucket 0. -/
theorem delete_not_found_iff_witness :
    HashFunction 5 (ofString "d") = some 0 ∧
      bucketAt (table5 "ab" ["ba"]) 0 = some ⟨ofString "ab", [ofString "ba"]⟩ ∧
      ∃ r t1, DeleteEntryFromHashTable (table5 "ab" ["ba"]) 5 (ofString "d") = some (r, t1) ∧
        (0 < r ↔ ofString "d" ∉ (⟨ofString "ab", [ofString "ba"]⟩ : strHashTable).chain) ∧
        (0 < r ↔ SearchHashTable (table5 "ab" ["ba"]) 5 (ofString "d") = some (-1)) ∧
        (0 < r → t1 = table5 "ab" ["ba"]) ∧ (¬ 0 < r → r = 0) :=
  ⟨by decide, by decide,
    delete_not_found_iff 5 (table5 "ab" ["ba"]) (ofString "d") 0
      ⟨ofString "ab", [ofString "ba"]⟩ (by decide) (by decide)⟩

/-- C12: when the bucket `HashFunction N k` of a table of `N > 0` buckets
exists, `SearchHashTable` returns that index, a value in `0..N-1`, if some
record of the chain holds `k`, the loop then stopping with `nChain` at the
0-based position of the first such record; it returns `-1` if no record of the
chain holds `k`.  The index is never `-1`.  The table is passed as a pointer
to `const` and `SearchHashTable` yields the return value only. -/
theorem search_result (N : Int) (t : List strHashTable) (k : CString)
    (i : Int) (b : strHashTable)
    (_hN : 0 < N) (hlen : (t.length : Int) = N)
    (hh : HashFunction N k = some i) (hb : bucketAt t i = some b) :
    (k ∈ b.chain →
        SearchHashTable t N k = some i ∧
        ∃ nChain, searchLoop k b.chain 0 = some nChain ∧
          b.chain[nChain]? = some k ∧ ∀ j, j < nChain → b.chain[j]? ≠ some k) ∧
      (k ∉ b.chain → SearchHashTable t N k = some (-1)) ∧
      (0 ≤ i ∧ i < N) ∧ i ≠ -1 := by
  obtain ⟨h0, hlt, -⟩ := bucketAt_some hb
  refine ⟨?_, ?_, ⟨h0, by omega⟩, by omega⟩
  · intro hm
    refine ⟨by rw [search_eq hh hb, if_pos hm], ?_⟩
    cases hs : searchLoop k b.chain 0 with
    | none => exact absurd hm (searchLoop_eq_none.mp hs)
    | some m =>
      obtain ⟨-, hget, hbefore⟩ := searchLoop_some hs
      exact ⟨m, rfl, by simpa using hget, by simpa using hbefore⟩
  · intro hm
    rw [search_eq hh hb, if_neg hm]

/-- C12 at a concrete input: bucket 0 of a table of 5 buckets holds the chain
`["ab", "ba", "d"]` and the key is `"ba"`, found at position 1. -/
theorem search_result_witness :
    HashFunction 5 (ofString "ba") = some 0 ∧
      bucketAt (table5 "ab" ["ba", "d"]) 0 = some ⟨ofString "ab", [ofString "ba", ofString "d"]⟩ ∧
      searchLoop (ofString "ba") [ofString "ab", ofString "ba", ofString "d"] 0 = some 1 ∧
      ((ofString "ba" ∈ (⟨ofString "ab", [ofString "ba", ofString "d"]⟩ : strHashTable).chain →
          SearchHashTable (table5 "ab" ["ba", "d"]) 5 (ofString "ba") = some 0 ∧
          ∃ nChain,
            searchLoop (ofString "ba")
              (⟨ofString "ab", [ofString "ba", ofString "d"]⟩ : strHashTable).chain 0
              = some nChain ∧
            (⟨ofString "ab", [ofString "ba", ofString "d"]⟩ : strHashTable).chain[nChain]?
              = some (ofString "ba") ∧
            ∀ j, j < nChain →
              (⟨ofString "ab", [ofString "ba", ofString "d"]⟩ : strHashTable).chain[j]?
                ≠ some (ofString "ba")) ∧
        (ofString "ba" ∉ (⟨ofString "ab", [ofString "ba", ofString "d"]⟩ : strHashTable).chain →
          SearchHashTable (table5 "ab" ["ba", "d"]) 5 (ofString "ba") = some (-1)) ∧
        ((0 : Int) ≤ 0 ∧ (0 : Int) < 5) ∧ (0 : Int) ≠ -1) :=
  ⟨by decide, by decide, by decide,
    search_result 5 (table5 "ab" ["ba", "d"]) (ofString "ba") 0
      ⟨ofString "ab", [ofString "ba", ofString "d"]⟩
      (by decide) (by decide) (by decide) (by decide)⟩

/-! ## The hash function -/

/-- C13: evaluation of the code on a key with characters of code 128 and
above where `char` is signed.  The two bytes `0xC3 0xA9` are held as `-61` and
`-87`; with 5 buckets `HashFunction` returns `-3`, which is no index of the
bucket array, so insertion, search and deletion of that key are undefined. -/
theorem hash_negative_index :
    HashFunction 5 [-61, -87] = some (-3) ∧
      bucketAt (newTable 5) (-3) = none ∧
      AddEntryToHashTable 8192 true (newTable 5) 5 [-61, -87] = none ∧
      SearchHashTable (newTable 5) 5 [-61, -87] = none ∧
      DeleteEntryFromHashTable (newTable 5) 5 [-61, -87] = none := by
  decide

/-- C14: evaluation of the code on a key with characters of code 128 and
above where `char` is signed.  The two bytes `0xC3 0xA9` are held as `-61` and
`-87`; with 5 buckets `HashFunction` returns `-3`, whereas the sum of the
codes taken modulo 5 is `2` on the values the `char` holds and `4` on the byte
values `195`, `169`. -/
theorem hash_differs_from_sum_modulo :
    HashFunction 5 [-61, -87] = some (-3) ∧
      sumModulo 5 [-61, -87] = 2 ∧
      byteCodes [-61, -87] = [195, 169] ∧
      sumModulo 5 (byteCodes [-61, -87]) = 4 := by
  decide

/-- What `HashFunction` computes for `N > 0`: the sum of the character codes
under the C remainder.  On a key without a negative code this is the sum
modulo `N` of the specification; the empty key hashes to `0` and keys that
are permutations of each other hash alike. -/
theorem hash_eq_sum_mod (N : Int) (key : CString) (hN : 0 < N) :
    HashFunction N key = some (Int.tmod key.sum N) ∧
      ((∀ c ∈ key, 0 ≤ c) → HashFunction N key = some (sumModulo N key)) ∧
      HashFunction N [] = some 0 ∧
      ∀ key2 : CString, key.Perm key2 → HashFunction N key2 = HashFunction N key := by
  have hN0 : N ≠ 0 := by omega
  refine ⟨hash_eq hN0 key, ?_, ?_, ?_⟩
  · intro hpos
    rw [hash_eq hN0, Int.tmod_eq_emod (List.sum_nonneg hpos) (by omega)]
    rfl
  · rw [hash_eq hN0]; simp
  · intro key2 hp
    rw [hash_eq hN0, hash_eq hN0, hp.sum_eq]

/-- The key `"apple"` with 5 buckets: the codes add up to `530` and none is
negative. -/
theorem hash_eq_sum_mod_witness :
    (ofString "apple").sum = 530 ∧
      HashFunction 5 (ofString "apple") = some (Int.tmod (ofString "apple").sum 5) ∧
      ((∀ c ∈ ofString "apple", 0 ≤ c) →
        HashFunction 5 (ofString "apple") = some (sumModulo 5 (ofString "apple"))) ∧
      HashFunction 5 [] = some 0 ∧
      ∀ key2 : CString, (ofString "apple").Perm key2 →
        HashFunction 5 key2 = HashFunction 5 (ofString "apple") :=
  ⟨by decide, hash_eq_sum_mod 5 (ofString "apple") (by decide)⟩

/-! ## Allocation failure -/

/-- C16: whenever `AddEntryToHashTable` returns a negative value, that value
is `-1`, different from `0` and from every positive value, the allocation has
failed and the table is the one before the call. -/
theorem add_negative_unchanged (BUFSIZ : Nat) (bCalloc : Bool)
    (t t1 : List strHashTable) (N : Int) (k : CString) (r : Int)
    (h : AddEntryToHashTable BUFSIZ bCalloc t N k = some (r, t1)) (hr : r < 0) :
    t1 = t ∧ r = -1 ∧ r ≠ 0 ∧ ¬ 0 < r ∧ bCalloc = false := by
  unfold AddEntryToHashTable at h
  split at h
  · cases h
  · split at h
    · cases h
    · split at h
      · simp only [Option.some.injEq, Prod.mk.injEq] at h
        omega
      · split at h
        · simp only [Option.some.injEq, Prod.mk.injEq] at h
          omega
        · rename_i hc
          simp only [Option.some.injEq, Prod.mk.injEq] at h
          refine ⟨h.2.symm, h.1.symm, by omega, by omega, ?_⟩
          simpa using hc

/-- C16 at a concrete input: `"ab"` inserted into a fresh table of 5 buckets
while `calloc` fails. -/
theorem add_negative_unchanged_witness :
    AddEntryToHashTable 8192 false (newTable 5) 5 (ofString "ab") = some (-1, newTable 5) ∧
      (newTable 5 = newTable 5 ∧ (-1 : Int) = -1 ∧ (-1 : Int) ≠ 0 ∧ ¬ (0 : Int) < -1 ∧
        false = false) :=
  ⟨by decide,
    add_negative_unchanged 8192 false (newTable 5) (newTable 5) 5 (ofString "ab") (-1)
      (by decide) (by decide)⟩

/-! ## Keys longer than the payload -/

theorem longPayload_length : longPayload.length = 8192 :=
  List.length_replicate 8192 97

theorem longPayload_ne_nil : longPayload ≠ [] := by
  intro h
  have := congrArg List.length h
  rw [longPayload_length] at this
  cases this

theorem longKey_ne_longPayload : longKey ≠ longPayload := by
  intro h
  have := congrArg List.length h
  simp [longKey, longPayload_length] at this

theorem longKey_take : longKey.take 8192 = longPayload := by
  rw [longKey, ← longPayload_length, List.take_left']
  rfl

theorem longPayload_sum : longPayload.sum = 794624 := by
  unfold longPayload
  rw [List.sum_replicate]
  norm_num

theorem hash_longKey : HashFunction 5 longKey = some 2 := by
  rw [hash_eq (by decide), longKey, List.sum_append, longPayload_sum]
  rfl

theorem hash_longPayload : HashFunction 5 longPayload = some 4 := by
  rw [hash_eq (by decide), longPayload_sum]
  rfl

/-- C15: evaluation of the code with `BUFSIZ = 8192` on the key of `8193`
characters `longKey`, inserted into the fresh table of 5 buckets.  The key
hashes to bucket 2 and its truncated form `longPayload` to bucket 4.  The
insertion returns `0` and stores the truncated form, but in bucket 2; the
search of the truncated form walks bucket 4 and returns `-1`. -/
theorem add_long_key_then_search_truncated :
    longKey.length = 8193 ∧
      longKey.take 8192 = longPayload ∧
      HashFunction 5 longKey = some 2 ∧
      HashFunction 5 (longKey.take 8192) = some 4 ∧
      AddEntryToHashTable 8192 true (newTable 5) 5 longKey
        = some (0, [⟨[], []⟩, ⟨[], []⟩, ⟨longPayload, []⟩, ⟨[], []⟩, ⟨[], []⟩]) ∧
      SearchHashTable [⟨[], []⟩, ⟨[], []⟩, ⟨longPayload, []⟩, ⟨[], []⟩, ⟨[], []⟩] 5
          (longKey.take 8192)
        = some (-1) := by
  have hb2 : bucketAt (newTable 5) 2 = some ⟨[], []⟩ := by decide
  have hb4 : bucketAt [⟨[], []⟩, ⟨[], []⟩, ⟨longPayload, []⟩, ⟨[], []⟩, ⟨[], []⟩] 4
      = some ⟨[], []⟩ := rfl
  refine ⟨by simp [longKey, longPayload_length], longKey_take, hash_longKey, ?_, ?_, ?_⟩
  · rw [longKey_take]; exact hash_longPayload
  · rw [add_eq_of_noEmpty (noEmpty_newTable 5) hash_longKey hb2, longKey_take]
    rfl
  · rw [longKey_take, search_eq hash_longPayload hb4, if_neg]
    simp [strHashTable.chain, longPayload_ne_nil]

/-! ## Construction of the table -/

/-- C17: evaluation of `main` on the command line `--hashsize 0` (where
`atoi("0")` is `0`) with a `calloc` that returns a non-null pointer for a
request of zero objects.  `main` does not exit: it enters the menu loop with
`0` buckets, and there every insertion, search and deletion calls
`HashFunction` with the modulus `0`, whose remainder is undefined.  A negative
count, as in `--hashsize -1`, makes `main` exit with `-1`. -/
theorem main_accepts_zero_buckets :
    mainStartup (fun _ => 0) true ["hash-table", "--hashsize", "0"]
        = some (Startup.menu 0 []) ∧
      HashFunction 0 (ofString "ab") = none ∧
      AddEntryToHashTable 8192 true [] 0 (ofString "ab") = none ∧
      SearchHashTable [] 0 (ofString "ab") = none ∧
      DeleteEntryFromHashTable [] 0 (ofString "ab") = none ∧
      mainStartup (fun _ => -1) true ["hash-table", "--hashsize", "-1"]
        = some (Startup.exited (-1)) := by
  decide

/-! ## Invariants of the reachable tables -/

theorem addLoop_dropLast_prefix {k new : CString} {bF : Bool} {d : CString}
    {rest : List CString} {n : strHashTable}
    (h : addLoop k new bF d rest = some n) : n.chain.dropLast <+: d :: rest := by
  induction rest generalizing bF d n with
  | nil =>
    unfold addLoop at h
    split at h
    · split at h
      · cases h; simp [strHashTable.chain]
      · cases h; simp [strHashTable.chain]
    · split at h
      · cases h
      · cases h; simp [strHashTable.chain]
  | cons e rest ih =>
    unfold addLoop at h
    split at h
    · split at h
      · cases h; simp [strHashTable.chain]
      · cases h
        simp only [strHashTable.chain, List.dropLast_cons₂, List.dropLast_single]
        exact ⟨e :: rest, rfl⟩
    · split at h
      · cases h
      · simp only [Option.map_eq_some'] at h
        obtain ⟨m, hm, rfl⟩ := h
        have := ih hm
        simp only [strHashTable.chain] at this ⊢
        rw [List.dropLast_cons_of_ne_nil (by simp)]
        exact List.prefix_cons_inj d |>.mpr this

theorem deleteLoop_sublist {k : CString} {l l1 : List CString}
    (h : deleteLoop k l = some l1) : l1.Sublist l := by
  induction l generalizing l1 with
  | nil => cases h
  | cons d l ih =>
    unfold deleteLoop at h
    by_cases hd : d = k
    · simp only [hd, ne_eq, not_true_eq_false, if_false, Option.some.injEq] at h
      have : l1 = l := by
        rw [← h]; split <;> simp_all
      rw [this]
      exact List.sublist_cons_self _ _
    · simp only [ne_eq, hd, not_false_eq_true, if_true, Option.map_eq_some'] at h
      obtain ⟨l2, hl2, rfl⟩ := h
      exact (ih hl2).cons₂ d

theorem placement_set {N : Int} {t : List strHashTable} {i : Int}
    {b n : strHashTable} (hp : Placement N t) (hb : bucketAt t i = some b)
    (hn : ∀ p ∈ n.chain, p ≠ [] → HashFunction N p = some i) :
    Placement N (t.set i.toNat n) := by
  intro j b1 hb1 p hpm hne
  by_cases hij : i = j
  · subst hij
    rw [bucketAt_set_same hb n] at hb1
    cases hb1
    exact hn p hpm hne
  · rw [bucketAt_set_other t (bucketAt_some hb).1 hij n] at hb1
    exact hp j b1 hb1 p hpm hne

/-- The non-empty payloads of each chain are pairwise different. -/
theorem distinct_set {t : List strHashTable}
    (hd : ∀ b ∈ t, (b.chain.filter (fun d => decide (d ≠ []))).Nodup) (j : Nat)
    {n : strHashTable} (hn : (n.chain.filter (fun d => decide (d ≠ []))).Nodup) :
    ∀ b ∈ t.set j n, (b.chain.filter (fun d => decide (d ≠ []))).Nodup := by
  intro b hb
  rcases List.mem_or_eq_of_mem_set hb with h | h
  · exact hd b h
  · rw [h]; exact hn

theorem inv_add {B : Nat} {c : Bool} {t t1 : List strHashTable} {N : Int}
    {k : CString} {r : Int} (hk : k.length ≤ B) (hp : Placement N t)
    (hd : ∀ b ∈ t, (b.chain.filter (fun d => decide (d ≠ []))).Nodup)
    (h : AddEntryToHashTable B c t N k = some (r, t1)) :
    Placement N t1 ∧ ∀ b ∈ t1, (b.chain.filter (fun d => decide (d ≠ []))).Nodup := by
  unfold AddEntryToHashTable at h
  split at h
  · cases h
  · rename_i i hh
    split at h
    · cases h
    · rename_i b hb
      split at h
      · cases h; exact ⟨hp, hd⟩
      · rename_i n hn
        split at h
        · cases h
          rw [List.take_of_length_le hk] at hn
          obtain ⟨pre, hpre, hall⟩ := addLoop_some hn
          have hpref := addLoop_dropLast_prefix hn
          rw [hpre, List.dropLast_concat] at hpref
          have hsub : ∀ x ∈ pre, x ∈ b.chain := fun x hx => hpref.subset hx
          constructor
          · refine placement_set hp hb ?_
            intro p hpm hne
            rw [hpre] at hpm
            rcases List.mem_append.mp hpm with hm | hm
            · exact hp i b hb p (hsub p hm) hne
            · rw [List.mem_singleton.mp hm]; exact hh
          · refine distinct_set hd _ ?_
            rw [hpre, List.filter_append]
            have hpre_nodup : (pre.filter (fun d => decide (d ≠ []))).Nodup :=
              (hd b (bucketAt_mem hb)).sublist (hpref.sublist.filter _)
            by_cases hke : k = []
            · simpa [hke] using hpre_nodup
            · have hfil : [k].filter (fun d => decide (d ≠ [])) = [k] := by simp [hke]
              rw [hfil, List.nodup_append]
              refine ⟨hpre_nodup, List.nodup_singleton k, ?_⟩
              intro x hx1 hx2
              rw [List.mem_singleton.mp hx2] at hx1
              obtain ⟨hx, -⟩ := List.mem_filter.mp hx1
              rcases hall k hx with h1 | h1
              · exact hke h1
              · exact h1 rfl
        · cases h; exact ⟨hp, hd⟩

theorem inv_delete {t t1 : List strHashTable} {N : Int} {k : CString} {r : Int}
    (hp : Placement N t)
    (hd : ∀ b ∈ t, (b.chain.filter (fun d => decide (d ≠ []))).Nodup)
    (h : DeleteEntryFromHashTable t N k = some (r, t1)) :
    Placement N t1 ∧ ∀ b ∈ t1, (b.chain.filter (fun d => decide (d ≠ []))).Nodup := by
  cases hh : HashFunction N k with
  | none => simp [DeleteEntryFromHashTable, hh] at h
  | some i =>
    cases hb : bucketAt t i with
    | none => simp [DeleteEntryFromHashTable, hh, hb] at h
    | some b =>
      have hbd := hd b (bucketAt_mem hb)
      have hbp := hp i b hb
      by_cases hhead : b.szData = k
      · rw [delete_head_eq hh hb hhead] at h
        cases h
        constructor
        · refine placement_set hp hb ?_
          intro p hpm hne
          rcases List.mem_cons.mp hpm with h1 | h1
          · exact absurd h1 hne
          · exact hbp p (List.mem_cons_of_mem _ h1) hne
        · refine distinct_set hd _ ?_
          have hsub : (⟨[], b.pstrNext⟩ : strHashTable).chain.filter
              (fun d => decide (d ≠ [])) = b.pstrNext.filter (fun d => decide (d ≠ [])) := by
            simp [strHashTable.chain]
          rw [hsub]
          exact hbd.sublist ((List.sublist_cons_self _ _).filter _)
      · rw [delete_overflow_eq hh hb hhead] at h
        cases hl : deleteLoop k b.pstrNext with
        | none =>
          rw [hl] at h
          cases h; exact ⟨hp, hd⟩
        | some l =>
          rw [hl] at h
          cases h
          have hsl := deleteLoop_sublist hl
          constructor
          · refine placement_set hp hb ?_
            intro p hpm hne
            rcases List.mem_cons.mp hpm with h1 | h1
            · exact hbp p (by rw [h1]; simp [strHashTable.chain]) hne
            · exact hbp p (List.mem_cons_of_mem _ (hsl.subset h1)) hne
          · refine distinct_set hd _ ?_
            exact hbd.sublist ((hsl.cons₂ b.szData).filter _)

theorem inv_newTable (N : Int) (n : Nat) :
    Placement N (newTable n) ∧
      ∀ b ∈ newTable n, (b.chain.filter (fun d => decide (d ≠ []))).Nodup := by
  constructor
  · intro i b hb p hpm hne
    have := bucketAt_mem hb
    rw [newTable, List.mem_replicate] at this
    rw [this.2] at hpm
    simp [strHashTable.chain] at hpm
    exact absurd hpm hne
  · intro b hb
    rw [newTable, List.mem_replicate] at hb
    rw [hb.2]
    simp [strHashTable.chain]

theorem inv_of_reachableFit {B : Nat} {N : Int} {t : List strHashTable}
    (h : ReachableFit B N t) :
    Placement N t ∧ ∀ b ∈ t, (b.chain.filter (fun d => decide (d ≠ []))).Nodup := by
  induction h with
  | init => exact inv_newTable _ _
  | add _ hk hadd ih => exact inv_add hk ih.1 ih.2 hadd
  | delete _ _ hdel ih => exact inv_delete ih.1 ih.2 hdel

theorem bucketAt_natCast (t : List strHashTable) (i : Nat) :
    bucketAt t (i : Int) = t[i]? := by
  simp [bucketAt]

theorem nodup_livePayloads {N : Int} {t : List strHashTable} (hp : Placement N t)
    (hd : ∀ b ∈ t, (b.chain.filter (fun d => decide (d ≠ []))).Nodup) :
    (livePayloads t).Nodup := by
  unfold livePayloads
  rw [List.nodup_flatMap]
  refine ⟨hd, ?_⟩
  rw [List.pairwise_iff_getElem]
  intro i j hi hj hij
  simp only [Function.onFun]
  intro p hpi hpj
  obtain ⟨hmi, hne⟩ := List.mem_filter.mp hpi
  obtain ⟨hmj, -⟩ := List.mem_filter.mp hpj
  have hne1 : p ≠ [] := by simpa using hne
  have h1 := hp (i : Int) t[i] (by rw [bucketAt_natCast]; exact List.getElem?_eq_getElem hi)
    p hmi hne1
  have h2 := hp (j : Int) t[j] (by rw [bucketAt_natCast]; exact List.getElem?_eq_getElem hj)
    p hmj hne1
  rw [h1] at h2
  have := Option.some.inj h2
  omega

/-- C18, as stated, fails on a key longer than the payload.  With
`BUFSIZ = 8192` and 5 buckets, the key of `8193` characters `longKey` is
inserted twice into a fresh table: both calls return `0`, since the stored
truncated form never equals the key, and two records of bucket 2 then hold
the same non-empty payload. -/
theorem add_long_key_twice :
    AddEntryToHashTable 8192 true (newTable 5) 5 longKey
        = some (0, [⟨[], []⟩, ⟨[], []⟩, ⟨longPayload, []⟩, ⟨[], []⟩, ⟨[], []⟩]) ∧
      AddEntryToHashTable 8192 true
          [⟨[], []⟩, ⟨[], []⟩, ⟨longPayload, []⟩, ⟨[], []⟩, ⟨[], []⟩] 5 longKey
        = some (0, [⟨[], []⟩, ⟨[], []⟩, ⟨longPayload, [longPayload]⟩, ⟨[], []⟩, ⟨[], []⟩]) ∧
      longPayload ≠ [] ∧
      ¬ (livePayloads
          [⟨[], []⟩, ⟨[], []⟩, ⟨longPayload, [longPayload]⟩, ⟨[], []⟩, ⟨[], []⟩]).Nodup := by
  have hb2 : bucketAt (newTable 5) 2 = some ⟨[], []⟩ := by decide
  have hb2a : bucketAt [⟨[], []⟩, ⟨[], []⟩, ⟨longPayload, []⟩, ⟨[], []⟩, ⟨[], []⟩] 2
      = some ⟨longPayload, []⟩ := rfl
  have hinv : NoEmptyOverflow
      [⟨[], []⟩, ⟨[], []⟩, ⟨longPayload, []⟩, ⟨[], []⟩, ⟨[], []⟩] := by
    intro b hb d hd
    simp only [List.mem_cons, List.mem_singleton, List.not_mem_nil, or_false] at hb
    rcases hb with h | h | h | h | h <;> rw [h] at hd <;> cases hd
  refine ⟨?_, ?_, longPayload_ne_nil, ?_⟩
  · rw [add_eq_of_noEmpty (noEmpty_newTable 5) hash_longKey hb2, longKey_take]
    rfl
  · rw [add_eq_of_noEmpty hinv hash_longKey hb2a, longKey_take, if_neg longPayload_ne_nil,
      if_neg]
    · rfl
    · simp [strHashTable.chain, longKey_ne_longPayload]
  · have hl : livePayloads
        [⟨[], []⟩, ⟨[], []⟩, ⟨longPayload, [longPayload]⟩, ⟨[], []⟩, ⟨[], []⟩]
        = [longPayload, longPayload] := by
      simp [livePayloads, strHashTable.chain, longPayload_ne_nil]
    rw [hl]
    simp

/-- C18, amended: in every table reachable by insertions and deletions whose
keys are no longer than the payload capacity, no non-empty payload is held by
two records: the list of the non-empty payloads of all records has no
duplicates. -/
theorem unique_payloads (BUFSIZ : Nat) (N : Int) (t : List strHashTable)
    (h : ReachableFit BUFSIZ N t) : (livePayloads t).Nodup := by
  obtain ⟨hp, hd⟩ := inv_of_reachableFit h
  exact nodup_livePayloads hp hd

/-- C18 amended, at a concrete input: the table reached by inserting `"ab"`
and `"ba"` into a fresh table of 5 buckets. -/
theorem unique_payloads_witness :
    ReachableFit 8192 5 (table5 "ab" ["ba"]) ∧
      livePayloads (table5 "ab" ["ba"]) = [ofString "ab", ofString "ba"] ∧
      (livePayloads (table5 "ab" ["ba"])).Nodup :=
  have h1 : ReachableFit 8192 5 (table5 "ab" []) :=
    ReachableFit.add (k := ofString "ab") (c := true) (r := 0) ReachableFit.init
      (by decide) (by decide)
  have hr : ReachableFit 8192 5 (table5 "ab" ["ba"]) :=
    ReachableFit.add (k := ofString "ba") (c := true) (r := 0) h1 (by decide) (by decide)
  ⟨hr, by decide, unique_payloads 8192 5 (table5 "ab" ["ba"]) hr⟩

/-- C19, as stated, fails on the empty line.  On a fresh table of 5 buckets
the insertion of `"d"` and then that of the empty key (both hash to bucket 0)
return `0`, and the second one links a record with an empty payload behind
the head. -/
theorem add_empty_key_behind_head :
    AddEntryToHashTable 8192 true (newTable 5) 5 (ofString "d")
        = some (0, table5 "d" []) ∧
      AddEntryToHashTable 8192 true (table5 "d" []) 5 (ofString "")
        = some (0, table5 "d" [""]) ∧
      bucketAt (table5 "d" [""]) 0 = some ⟨ofString "d", [[]]⟩ ∧
      ¬ NoEmptyOverflow (table5 "d" [""]) := by
  refine ⟨by decide, by decide, by decide, ?_⟩
  intro h
  exact h ⟨ofString "d", [[]]⟩ (by decide) [] (by simp) rfl

/-- C19, amended: in every table reachable by insertions and deletions of
non-empty keys (`BUFSIZ` being positive), no record other than a bucket head
has an empty payload. -/
theorem no_empty_overflow (BUFSIZ : Nat) (N : Int) (t : List strHashTable)
    (hB : 0 < BUFSIZ) (h : Reachable BUFSIZ N t) :
    ∀ (i : Int) (b : strHashTable), bucketAt t i = some b → ∀ d ∈ b.pstrNext, d ≠ [] := by
  intro i b hb
  exact noEmpty_of_reachable hB h b (bucketAt_mem hb)

/-- C19 amended, at a concrete input: the table reached by inserting `"ab"`
and `"ba"` into a fresh table of 5 buckets. -/
theorem no_empty_overflow_witness :
    Reachable 8192 5 (table5 "ab" ["ba"]) ∧
      ∀ (i : Int) (b : strHashTable), bucketAt (table5 "ab" ["ba"]) i = some b →
        ∀ d ∈ b.pstrNext, d ≠ [] :=
  have h1 : Reachable 8192 5 (table5 "ab" []) :=
    Reachable.add (k := ofString "ab") (c := true) (r := 0) Reachable.init
      (by decide) (by decide)
  have hr : Reachable 8192 5 (table5 "ab" ["ba"]) :=
    Reachable.add (k := ofString "ba") (c := true) (r := 0) h1 (by decide) (by decide)
  ⟨hr, no_empty_overflow 8192 5 (table5 "ab" ["ba"]) (by decide) hr⟩

/-- C20: in every table of `N > 0` buckets reachable by insertions and
deletions whose keys are no longer than the payload capacity, every record
with a non-empty payload `p` in the chain of bucket `i` has
`HashFunction N p = i`; hence a non-empty key is held by some record of the
table exactly when `SearchHashTable`, which walks the chain of bucket
`HashFunction N k` only, finds it. -/
theorem bucket_placement (BUFSIZ : Nat) (N : Int) (t : List strHashTable)
    (_hN : 0 < N) (h : ReachableFit BUFSIZ N t) :
    (∀ (i : Int) (b : strHashTable), bucketAt t i = some b →
        ∀ p ∈ b.chain, p ≠ [] → HashFunction N p = some i) ∧
      ∀ k : CString, k ≠ [] → ((∃ b ∈ t, k ∈ b.chain) ↔ Found t N k) := by
  obtain ⟨hp, -⟩ := inv_of_reachableFit h
  refine ⟨hp, ?_⟩
  intro k hk
  constructor
  · rintro ⟨b, hb, hm⟩
    obtain ⟨i, hi⟩ := List.mem_iff_getElem?.mp hb
    have hbi : bucketAt t (i : Int) = some b := by rw [bucketAt_natCast]; exact hi
    exact (found_iff (hp _ b hbi k hm hk) hbi).mpr hm
  · intro hf
    obtain ⟨i, b, -, hb, hm⟩ := found_inv hf
    exact ⟨b, bucketAt_mem hb, hm⟩

/-- C20 at a concrete input: the table reached by inserting `"ab"`, `"ba"`
and `"banana"` into a fresh table of 5 buckets. -/
theorem bucket_placement_witness :
    ReachableFit 8192 5
        [⟨ofString "ab", [ofString "ba"]⟩, ⟨[], []⟩, ⟨[], []⟩, ⟨[], []⟩,
          ⟨ofString "banana", []⟩] ∧
      (∀ (i : Int) (b : strHashTable),
        bucketAt [⟨ofString "ab", [ofString "ba"]⟩, ⟨[], []⟩, ⟨[], []⟩, ⟨[], []⟩,
          ⟨ofString "banana", []⟩] i = some b →
        ∀ p ∈ b.chain, p ≠ [] → HashFunction 5 p = some i) ∧
      ∀ k : CString, k ≠ [] →
        ((∃ b ∈ [⟨ofString "ab", [ofString "ba"]⟩, ⟨[], []⟩, ⟨[], []⟩, ⟨[], []⟩,
            (⟨ofString "banana", []⟩ : strHashTable)], k ∈ b.chain) ↔
          Found [⟨ofString "ab", [ofString "ba"]⟩, ⟨[], []⟩, ⟨[], []⟩, ⟨[], []⟩,
            ⟨ofString "banana", []⟩] 5 k) :=
  have h1 : ReachableFit 8192 5 (table5 "ab" []) :=
    ReachableFit.add (k := ofString "ab") (c := true) (r := 0) ReachableFit.init
      (by decide) (by decide)
  have h2 : ReachableFit 8192 5 (table5 "ab" ["ba"]) :=
    ReachableFit.add (k := ofString "ba") (c := true) (r := 0) h1 (by decide) (by decide)
  have hr : ReachableFit 8192 5
      [⟨ofString "ab", [ofString "ba"]⟩, ⟨[], []⟩, ⟨[], []⟩, ⟨[], []⟩,
        ⟨ofString "banana", []⟩] :=
    ReachableFit.add (k := ofString "banana") (c := true) (r := 0) h2
      (by decide) (by decide)
  ⟨hr, bucket_placement 8192 5 _ (by decide) hr⟩

/-! ## Frame of insertion and deletion -/

theorem add_result_shape {B : Nat} {c : Bool} {t : List strHashTable} {N i : Int}
    {k : CString} {b : strHashTable}
    (hh : HashFunction N k = some i) (hb : bucketAt t i = some b) :
    ∃ r t1, AddEntryToHashTable B c t N k = some (r, t1) ∧
      (t1 = t ∨ ∃ n, t1 = t.set i.toNat n) := by
  unfold AddEntryToHashTable
  simp only [hh, hb]
  cases addLoop k (List.take B k) false b.szData b.pstrNext with
  | none => exact ⟨1, t, rfl, Or.inl rfl⟩
  | some n =>
    cases c with
    | true => exact ⟨0, _, rfl, Or.inr ⟨n, rfl⟩⟩
    | false => exact ⟨-1, t, rfl, Or.inl rfl⟩

theorem delete_result_shape {t : List strHashTable} {N i : Int}
    {k : CString} {b : strHashTable}
    (hh : HashFunction N k = some i) (hb : bucketAt t i = some b) :
    ∃ r t1, DeleteEntryFromHashTable t N k = some (r, t1) ∧
      (t1 = t ∨ ∃ n, t1 = t.set i.toNat n) := by
  by_cases hd : b.szData = k
  · exact ⟨0, _, delete_head_eq hh hb hd, Or.inr ⟨_, rfl⟩⟩
  · rw [delete_overflow_eq hh hb hd]
    cases deleteLoop k b.pstrNext with
    | none => exact ⟨1, t, rfl, Or.inl rfl⟩
    | some l => exact ⟨0, _, rfl, Or.inr ⟨_, rfl⟩⟩

theorem frame_of_shape {t t1 : List strHashTable} {i : Int} (h0 : 0 ≤ i)
    (h : t1 = t ∨ ∃ n, t1 = t.set i.toNat n) :
    t1.length = t.length ∧ ∀ j : Int, j ≠ i → bucketAt t1 j = bucketAt t j := by
  rcases h with rfl | ⟨n, rfl⟩
  · exact ⟨rfl, fun _ _ => rfl⟩
  · exact ⟨List.length_set _ _ _, fun j hj => bucketAt_set_other t h0 (Ne.symm hj) n⟩

/-- C21: for `N > 0`, when the bucket `HashFunction N k` exists,
`AddEntryToHashTable` and `DeleteEntryFromHashTable` return, whatever the
outcome of the allocation and whatever the return code, a table with as many
buckets in which every bucket `j ≠ HashFunction N k` is exactly the node it
was: the same payloads in the same order. -/
theorem frame_other_buckets (BUFSIZ : Nat) (bCalloc : Bool) (N : Int)
    (t : List strHashTable) (k : CString) (i : Int) (b : strHashTable)
    (_hN : 0 < N) (hh : HashFunction N k = some i) (hb : bucketAt t i = some b) :
    (∃ r t1, AddEntryToHashTable BUFSIZ bCalloc t N k = some (r, t1) ∧
        t1.length = t.length ∧ ∀ j : Int, j ≠ i → bucketAt t1 j = bucketAt t j) ∧
      (∃ r t1, DeleteEntryFromHashTable t N k = some (r, t1) ∧
        t1.length = t.length ∧ ∀ j : Int, j ≠ i → bucketAt t1 j = bucketAt t j) := by
  have h0 := (bucketAt_some hb).1
  constructor
  · obtain ⟨r, t1, hadd, hshape⟩ := add_result_shape (B := BUFSIZ) (c := bCalloc) hh hb
    exact ⟨r, t1, hadd, frame_of_shape h0 hshape⟩
  · obtain ⟨r, t1, hdel, hshape⟩ := delete_result_shape hh hb
    exact ⟨r, t1, hdel, frame_of_shape h0 hshape⟩

/-- C21 at a concrete input: the key `"ab"`, which hashes to bucket 0, on the
table of 5 buckets whose bucket 0 holds `["ab", "ba"]` and whose bucket 4
holds `["banana"]`. -/
theorem frame_other_buckets_witness :
    HashFunction 5 (ofString "ab") = some 0 ∧
      bucketAt [⟨ofString "ab", [ofString "ba"]⟩, ⟨[], []⟩, ⟨[], []⟩, ⟨[], []⟩,
          ⟨ofString "banana", []⟩] 0 = some ⟨ofString "ab", [ofString "ba"]⟩ ∧
      (∃ r t1, AddEntryToHashTable 8192 true
            [⟨ofString "ab", [ofString "ba"]⟩, ⟨[], []⟩, ⟨[], []⟩, ⟨[], []⟩,
              ⟨ofString "banana", []⟩] 5 (ofString "ab") = some (r, t1) ∧
          t1.length = [⟨ofString "ab", [ofString "ba"]⟩, ⟨[], []⟩, ⟨[], []⟩, ⟨[], []⟩,
              (⟨ofString "banana", []⟩ : strHashTable)].length ∧
          ∀ j : Int, j ≠ 0 → bucketAt t1 j
            = bucketAt [⟨ofString "ab", [ofString "ba"]⟩, ⟨[], []⟩, ⟨[], []⟩, ⟨[], []⟩,
                ⟨ofString "banana", []⟩] j) ∧
      (∃ r t1, DeleteEntryFromHashTable
            [⟨ofString "ab", [ofString "ba"]⟩, ⟨[], []⟩, ⟨[], []⟩, ⟨[], []⟩,
              ⟨ofString "banana", []⟩] 5 (ofString "ab") = some (r, t1) ∧
          t1.length = [⟨ofString "ab", [ofString "ba"]⟩, ⟨[], []⟩, ⟨[], []⟩, ⟨[], []⟩,
              (⟨ofString "banana", []⟩ : strHashTable)].length ∧
          ∀ j : Int, j ≠ 0 → bucketAt t1 j
            = bucketAt [⟨ofString "ab", [ofString "ba"]⟩, ⟨[], []⟩, ⟨[], []⟩, ⟨[], []⟩,
                ⟨ofString "banana", []⟩] j) :=
  ⟨by decide, by decide,
    frame_other_buckets 8192 true 5
      [⟨ofString "ab", [ofString "ba"]⟩, ⟨[], []⟩, ⟨[], []⟩, ⟨[], []⟩,
        ⟨ofString "banana", []⟩]
      (ofString "ab") 0 ⟨ofString "ab", [ofString "ba"]⟩
      (by decide) (by decide) (by decide)⟩

end HashTableC
